import Mathlib

/-!
Shallow embedding of the Fraud-Detection-via-Personalized-PageRank engine.

The source program stores a directed weighted graph in compressed sparse row
(CSR) form and scores nodes with two engines: an exact power-iteration
personalized PageRank (`PPREngine::compute`) and a Monte Carlo random-walk
approximation (`MonteCarloEngine::compute`).  Machine doubles are modelled by
exact rationals (ℚ); the Monte Carlo random source is modelled by an explicit
stream of draws, one termination draw and one neighbor-selection draw per walk
step, so every function below is a total, executable translation of the
corresponding C++ code.
-/

/-- CSR graph value, mirroring `struct CSRGraph` of the source:
`row_ptr` (start index of the outgoing-edge range per node), `col_indices`
(destination per edge), `edge_weights`, and `out_weight_sum` (sum of outgoing
weights per node). -/
structure CSRGraph where
  num_nodes : ℕ
  num_edges : ℕ
  row_ptr : List ℕ
  col_indices : List ℕ
  edge_weights : List ℚ
  out_weight_sum : List ℚ
deriving Repr, DecidableEq

/-- One raw dataset edge as parsed by the loader: already-mapped integer
endpoints plus the optional third-column weight (`none` when the line had only
two columns). -/
structure RawEdge where
  u : ℕ
  v : ℕ
  w : Option ℚ

/-- Weight sanitization of the loader: default weight `1.0` when no third
column is present, otherwise `fabs(w_in)`; afterwards a weight of exactly `0`
is replaced by `0.0001`. -/
def sanitizeWeight (w : Option ℚ) : ℚ :=
  let weight : ℚ := match w with
    | none => 1
    | some w0 => |w0|
  if weight = 0 then 1 / 10000 else weight

/-- Adjacency row of node `i`: the sub-sequence of sanitized edges whose
source is `i`, in input order (the loader pushes each edge onto `adj[e.u]`). -/
def adjRow (edges : List (ℕ × ℕ × ℚ)) (i : ℕ) : List (ℕ × ℚ) :=
  (edges.filter (fun e => e.1 = i)).map (fun e => (e.2.1, e.2.2))

/-- CSR construction loop of `loadGraphFromFile`: for each node `i` in order,
`row_ptr[i]` is the running cursor (total length of the previous rows), the
row's destinations and weights are appended, and `out_weight_sum[i]` is the
sum of the row's weights; finally `row_ptr[N] = cursor`. -/
def buildCSR (N : ℕ) (edges : List (ℕ × ℕ × ℚ)) : CSRGraph :=
  let rows := (List.range N).map (adjRow edges)
  { num_nodes := N
    num_edges := edges.length
    row_ptr := (List.range (N + 1)).map (fun i => ((rows.take i).map List.length).sum)
    col_indices := (rows.map (fun row => row.map Prod.fst)).flatten
    edge_weights := (rows.map (fun row => row.map Prod.snd)).flatten
    out_weight_sum := rows.map (fun row => (row.map Prod.snd).sum) }

/-- `loadGraphFromFile` after parsing: sanitize each accepted edge's weight and
build the CSR graph over `N` nodes. -/
def loadGraph (N : ℕ) (raw : List RawEdge) : CSRGraph :=
  buildCSR N (raw.map (fun e => (e.u, e.v, sanitizeWeight e.w)))

/-- Result record of either engine (`struct AlgorithmResult`); the wall-clock
duration field is not modelled. -/
structure AlgorithmResult where
  scores : List ℚ
  iterations : ℕ
deriving Repr, DecidableEq

/-- The half-open outgoing-edge index range `row_ptr[u] ≤ k < row_ptr[u+1]`
iterated by both engines. -/
def edgeRange (g : CSRGraph) (u : ℕ) : List ℕ :=
  List.range' (g.row_ptr.getD u 0) (g.row_ptr.getD (u + 1) 0 - g.row_ptr.getD u 0)

/-- Personalization vector of `PPREngine::compute`: all zero; when `seeds` is
non-empty, each seed id `id` with `id < N` receives mass `1 / seeds.size()`. -/
def pprPersonalization (N : ℕ) (seeds : List ℕ) : List ℚ :=
  if seeds.isEmpty then List.replicate N 0
  else seeds.foldl
    (fun p id => if id < N then p.set id (1 / (seeds.length : ℚ)) else p)
    (List.replicate N 0)

/-- One inner-loop step of the scatter phase:
`r_new[v] += r[u] * (w / out_weight_sum[u])` for edge index `k`. -/
def pprScatterEdge (g : CSRGraph) (r : List ℚ) (u : ℕ) (acc : List ℚ) (k : ℕ) : List ℚ :=
  let v := g.col_indices.getD k 0
  let w := g.edge_weights.getD k 0
  acc.set v (acc.getD v 0 + r.getD u 0 * (w / g.out_weight_sum.getD u 0))

/-- One outer-loop step of the scatter phase: a node with positive outgoing
weight pushes along its edge range, a dead-end node adds `r[u]` to
`dead_mass`. -/
def pprScatterNode (g : CSRGraph) (r : List ℚ) (st : List ℚ × ℚ) (u : ℕ) : List ℚ × ℚ :=
  if 0 < g.out_weight_sum.getD u 0 then
    ((edgeRange g u).foldl (pprScatterEdge g r u) st.1, st.2)
  else (st.1, st.2 + r.getD u 0)

/-- Scatter phase of one power-iteration sweep: fresh `r_new` of zeros,
`dead_mass = 0`, then the nested loops above over all nodes. -/
def pprScatter (g : CSRGraph) (r : List ℚ) : List ℚ × ℚ :=
  (List.range g.num_nodes).foldl (pprScatterNode g r)
    (List.replicate g.num_nodes 0, 0)

/-- Combine-phase value for node `i`:
`(1-alpha)*r_new[i] + alpha*p[i] + (1-alpha)*dead_mass*p[i]`. -/
def pprVal (alpha : ℚ) (p scattered : List ℚ) (dead : ℚ) (i : ℕ) : ℚ :=
  (1 - alpha) * scattered.getD i 0 + alpha * p.getD i 0
    + (1 - alpha) * dead * p.getD i 0

/-- One full power-iteration sweep: scatter, then per-node combine producing
the next iterate together with the L1 difference `Σ |val - r[i]|`. -/
def pprSweep (g : CSRGraph) (alpha : ℚ) (p r : List ℚ) : List ℚ × ℚ :=
  let sc := pprScatter g r
  ((List.range g.num_nodes).map (pprVal alpha p sc.1 sc.2),
   ((List.range g.num_nodes).map
     (fun i => |pprVal alpha p sc.1 sc.2 i - r.getD i 0|)).sum)

/-- The bounded iteration loop (`for iter = 0; iter < 100; ...`): each pass
performs one sweep, sets `r := r_new`, counts the sweep, and stops early when
`diff < epsilon`. -/
def pprLoop (g : CSRGraph) (alpha epsilon : ℚ) (p : List ℚ) :
    ℕ → List ℚ → ℕ → List ℚ × ℕ
  | 0, r, iter_count => (r, iter_count)
  | fuel + 1, r, iter_count =>
    let sw := pprSweep g alpha p r
    if sw.2 < epsilon then (sw.1, iter_count + 1)
    else pprLoop g alpha epsilon p fuel sw.1 (iter_count + 1)

/-- `PPREngine::compute`: build `p`, start from `r := p`, run up to 100 sweeps,
return the final iterate and the 1-based count of sweeps performed. -/
def pprCompute (g : CSRGraph) (seeds : List ℕ) (alpha epsilon : ℚ) : AlgorithmResult :=
  let p := pprPersonalization g.num_nodes seeds
  let out := pprLoop g alpha epsilon p 100 p 0
  ⟨out.1, out.2⟩

/-- Weighted neighbor selection scan of `MonteCarloEngine::compute`: walk the
edge-index list accumulating weights; the first index whose running sum
reaches the target yields its destination, and if the scan exhausts the list
the current node is returned unchanged. -/
def mcScan (g : CSRGraph) (target : ℚ) (curr : ℕ) : ℚ → List ℕ → ℕ
  | _, [] => curr
  | acc, k :: ks =>
    let acc2 := acc + g.edge_weights.getD k 0
    if target ≤ acc2 then g.col_indices.getD k 0
    else mcScan g target curr acc2 ks

/-- Weighted neighbor selection over the current node's outgoing range,
starting the accumulator at `0`. -/
def mcPick (g : CSRGraph) (curr : ℕ) (target : ℚ) : ℕ :=
  mcScan g target curr 0 (edgeRange g curr)

/-- One random walk of `MonteCarloEngine::compute`, driven by an explicit
stream of draw pairs `(d, t)` (termination draw and neighbor-selection draw,
both uniform in `[0,1)` in the source).  Each loop step increments the visit
counter of the current node, stops when `d < alpha` or when the node is
dangling, and otherwise moves to the neighbor picked by the scaled draw
`t * out_weight_sum[curr]`.  An exhausted stream ends the walk. -/
def mcWalk (g : CSRGraph) (alpha : ℚ) : List (ℚ × ℚ) → ℕ → List ℕ → List ℕ
  | [], curr, visits => visits.set curr (visits.getD curr 0 + 1)
  | dt :: rest, curr, visits =>
    let visits1 := visits.set curr (visits.getD curr 0 + 1)
    if dt.1 < alpha then visits1
    else if g.out_weight_sum.getD curr 0 = 0 then visits1
    else mcWalk g alpha rest
      (mcPick g curr (dt.2 * g.out_weight_sum.getD curr 0)) visits1

/-- `MonteCarloEngine::compute`: empty seeds return the all-zero vector with a
zero walk count before touching the random source; otherwise each of the
`total_walks` walks starts from a uniformly drawn seed and updates the shared
visit counters, and the counters are normalized to probabilities when the
total visit count is positive.  `rand i` supplies walk `i`'s start draw and
step draws. -/
def mcCompute (g : CSRGraph) (seeds : List ℕ) (alpha : ℚ) (total_walks : ℕ)
    (rand : ℕ → ℕ × List (ℚ × ℚ)) : AlgorithmResult :=
  if seeds.isEmpty then ⟨List.replicate g.num_nodes 0, 0⟩
  else
    let visits := (List.range total_walks).foldl
      (fun v i => mcWalk g alpha (rand i).2
        (seeds.getD ((rand i).1 % seeds.length) 0) v)
      (List.replicate g.num_nodes 0)
    let total : ℕ := visits.sum
    ⟨if 0 < total then visits.map (fun c : ℕ => (c : ℚ) / (total : ℚ))
      else List.replicate g.num_nodes 0, total_walks⟩

/-! ### Generic list helpers -/

theorem listGetD_set_eq {α : Type} (l : List α) (i : ℕ) (x d : α) (h : i < l.length) :
    (l.set i x).getD i d = x := by
  rw [List.getD_eq_getElem?_getD, List.getElem?_set_self h]
  rfl

theorem listGetD_set_ne {α : Type} (l : List α) (i j : ℕ) (x d : α) (h : i ≠ j) :
    (l.set i x).getD j d = l.getD j d := by
  rw [List.getD_eq_getElem?_getD, List.getElem?_set_ne h, ← List.getD_eq_getElem?_getD]

theorem listGetD_map_range {α : Type} (f : ℕ → α) (n i : ℕ) (d : α) (h : i < n) :
    ((List.range n).map f).getD i d = f i := by
  rw [List.getD_eq_getElem?_getD, List.getElem?_map, List.getElem?_range h]
  rfl

theorem listGetD_replicate_zero (n i : ℕ) : (List.replicate n (0 : ℚ)).getD i 0 = 0 := by
  induction n generalizing i with
  | zero => simp
  | succ m ih =>
    cases i with
    | zero => simp [List.replicate]
    | succ j =>
      rw [List.replicate, List.getD_cons_succ]
      exact ih j

theorem listGetD_mem {α : Type} (l : List α) (i : ℕ) (d : α) (h : i < l.length) :
    l.getD i d ∈ l := by
  rw [List.getD_eq_getElem?_getD, List.getElem?_eq_getElem h]
  exact List.getElem_mem h

theorem listSet_getD_self (l : List ℚ) (i : ℕ) : l.set i (l.getD i 0) = l := by
  induction l generalizing i with
  | nil => rfl
  | cons a t ih =>
    cases i with
    | zero => simp
    | succ j =>
      rw [List.getD_cons_succ, List.set_cons_succ, ih j]

/-! ### Weight sanitization (loader) -/

theorem sanitizeWeight_pos (w : Option ℚ) : 0 < sanitizeWeight w := by
  cases w with
  | none => norm_num [sanitizeWeight]
  | some w0 =>
    by_cases h : |w0| = 0
    · norm_num [sanitizeWeight, h]
    · simp only [sanitizeWeight, h, if_false]
      exact lt_of_le_of_ne (abs_nonneg w0) (Ne.symm h)

theorem mem_adjRow_of_mem (edges : List (ℕ × ℕ × ℚ)) (e : ℕ × ℕ × ℚ) (he : e ∈ edges) :
    (e.2.1, e.2.2) ∈ adjRow edges e.1 := by
  unfold adjRow
  exact List.mem_map.mpr ⟨e, List.mem_filter.mpr ⟨he, by simp⟩, rfl⟩

theorem mem_of_mem_adjRow (edges : List (ℕ × ℕ × ℚ)) (u : ℕ) (x : ℕ × ℚ)
    (hx : x ∈ adjRow edges u) : (u, x.1, x.2) ∈ edges := by
  unfold adjRow at hx
  rcases List.mem_map.mp hx with ⟨e, hmem, hmap⟩
  rcases List.mem_filter.mp hmem with ⟨hin, hsrc⟩
  have hu : e.1 = u := by simpa using hsrc
  cases e with
  | mk a bc =>
    cases bc with
    | mk b c =>
      cases hmap
      cases hu
      exact hin

/-- C7: every edge accepted by the loader is stored with its sanitized weight:
the absolute value of the input weight, with an exact-zero input weight
replaced by `1e-4` (so `0 ↦ 1/10000` and `-5/2 ↦ 5/2`), and consequently every
stored edge weight is strictly positive. -/
theorem loadGraph_weight_sanitized (N : ℕ) (raw : List RawEdge) (e : RawEdge)
    (he : e ∈ raw) (hu : e.u < N) :
    sanitizeWeight e.w ∈ (loadGraph N raw).edge_weights ∧
    (∀ w0 : ℚ, e.w = some w0 → w0 ≠ 0 → sanitizeWeight e.w = |w0|) ∧
    (e.w = some 0 → sanitizeWeight e.w = 1 / 10000) ∧
    (e.w = some (-(5 / 2)) → sanitizeWeight e.w = 5 / 2) ∧
    (∀ q ∈ (loadGraph N raw).edge_weights, 0 < q) := by
  have hew : (loadGraph N raw).edge_weights =
      (((List.range N).map
          (adjRow (raw.map (fun e0 : RawEdge => (e0.u, e0.v, sanitizeWeight e0.w))))).map
        (fun row : List (ℕ × ℚ) => row.map Prod.snd)).flatten := by
    simp [loadGraph, buildCSR]
  refine ⟨?_, ?_, ?_, ?_, ?_⟩
  · rw [hew]
    apply List.mem_flatten.mpr
    refine ⟨(adjRow (raw.map (fun e0 : RawEdge => (e0.u, e0.v, sanitizeWeight e0.w))) e.u).map
      Prod.snd, ?_, ?_⟩
    · exact List.mem_map.mpr ⟨adjRow _ e.u,
        List.mem_map.mpr ⟨e.u, List.mem_range.mpr hu, rfl⟩, rfl⟩
    · have hmem : (e.u, e.v, sanitizeWeight e.w) ∈
          raw.map (fun e0 : RawEdge => (e0.u, e0.v, sanitizeWeight e0.w)) :=
        List.mem_map.mpr ⟨e, he, rfl⟩
      have := mem_adjRow_of_mem _ _ hmem
      exact List.mem_map.mpr ⟨(e.v, sanitizeWeight e.w), this, rfl⟩
  · intro w0 hw hne
    have habs : |w0| ≠ 0 := fun hc => hne (abs_eq_zero.mp hc)
    simp [sanitizeWeight, hw, habs]
  · intro hw
    simp [sanitizeWeight, hw]
  · intro hw
    rw [hw]
    norm_num [sanitizeWeight]
  · intro q hq
    rw [hew] at hq
    rcases List.mem_flatten.mp hq with ⟨row, hrow, hqrow⟩
    rcases List.mem_map.mp hrow with ⟨adj, hadj, rfl⟩
    rcases List.mem_map.mp hadj with ⟨i, hi, rfl⟩
    rcases List.mem_map.mp hqrow with ⟨x, hxadj, rfl⟩
    have hx : (i, x.1, x.2) ∈ raw.map (fun e0 : RawEdge => (e0.u, e0.v, sanitizeWeight e0.w)) :=
      mem_of_mem_adjRow _ _ _ hxadj
    rcases List.mem_map.mp hx with ⟨e0, he0mem, he0⟩
    have hsnd : sanitizeWeight e0.w = x.2 := by
      have h2 := congrArg (fun t : ℕ × ℕ × ℚ => t.2.2) he0
      simpa using h2
    rw [← hsnd]
    exact sanitizeWeight_pos e0.w

/-- Witness for C7 at a concrete input: the two-edge dataset
`(0 → 1, weight 0)`, `(1 → 0, weight -5/2)` over two nodes. -/
theorem loadGraph_weight_sanitized_witness :
    ((⟨0, 1, some 0⟩ : RawEdge) ∈ [(⟨0, 1, some 0⟩ : RawEdge), ⟨1, 0, some (-(5 / 2))⟩] ∧
      (0 : ℕ) < 2) ∧
    sanitizeWeight (some 0) ∈
      (loadGraph 2 [(⟨0, 1, some 0⟩ : RawEdge), ⟨1, 0, some (-(5 / 2))⟩]).edge_weights := by
  refine ⟨⟨by simp, by norm_num⟩, ?_⟩
  exact (loadGraph_weight_sanitized 2 [⟨0, 1, some 0⟩, ⟨1, 0, some (-(5 / 2))⟩]
    ⟨0, 1, some 0⟩ (by simp) (by norm_num)).1

/-- C9: `MonteCarloEngine::compute` with an empty seed set returns the
all-zero length-N score vector with a zero walk count, for every random
source (so no draw can influence the result). -/
theorem mcCompute_emptySeeds (g : CSRGraph) (alpha : ℚ) (total_walks : ℕ)
    (rand : ℕ → ℕ × List (ℚ × ℚ)) :
    mcCompute g [] alpha total_walks rand = ⟨List.replicate g.num_nodes 0, 0⟩ := by
  simp [mcCompute]

/-- C6: `PPREngine::compute` is deterministic: it is embedded as a pure
function of exactly the graph, the seed set, alpha, and epsilon (the source
reads no random or global state on this path), so two invocations with
identical arguments produce identical score vectors and identical iteration
counts. -/
theorem pprCompute_deterministic (g1 g2 : CSRGraph) (s1 s2 : List ℕ)
    (a1 a2 e1 e2 : ℚ) (hg : g1 = g2) (hs : s1 = s2) (ha : a1 = a2) (he : e1 = e2) :
    (pprCompute g1 s1 a1 e1).scores = (pprCompute g2 s2 a2 e2).scores ∧
    (pprCompute g1 s1 a1 e1).iterations = (pprCompute g2 s2 a2 e2).iterations := by
  subst hg
  subst hs
  subst ha
  subst he
  exact ⟨rfl, rfl⟩

/-- Witness for C6 at a concrete input: the one-node self-loop graph, seed
`0`, `alpha = 1/2`, `epsilon = 1/1000000`, invoked twice. -/
theorem pprCompute_deterministic_witness :
    (buildCSR 1 [(0, 0, 1)] = buildCSR 1 [(0, 0, 1)] ∧ ([0] : List ℕ) = [0] ∧
      (1 / 2 : ℚ) = 1 / 2 ∧ (1 / 1000000 : ℚ) = 1 / 1000000) ∧
    (pprCompute (buildCSR 1 [(0, 0, 1)]) [0] (1 / 2) (1 / 1000000)).scores =
      (pprCompute (buildCSR 1 [(0, 0, 1)]) [0] (1 / 2) (1 / 1000000)).scores ∧
    (pprCompute (buildCSR 1 [(0, 0, 1)]) [0] (1 / 2) (1 / 1000000)).iterations =
      (pprCompute (buildCSR 1 [(0, 0, 1)]) [0] (1 / 2) (1 / 1000000)).iterations :=
  ⟨⟨rfl, rfl, rfl, rfl⟩,
   pprCompute_deterministic (buildCSR 1 [(0, 0, 1)]) (buildCSR 1 [(0, 0, 1)])
     [0] [0] (1 / 2) (1 / 2) (1 / 1000000) (1 / 1000000) rfl rfl rfl rfl⟩

/-! ### Zero propagation through one sweep (empty-seed behavior) -/

theorem listFoldl_fixed {α β : Type} (f : α → β → α) (l : List β) (a : α)
    (h : ∀ x ∈ l, ∀ b, f b x = b) : l.foldl f a = a := by
  induction l generalizing a with
  | nil => rfl
  | cons x xs ih =>
    rw [List.foldl_cons, h x (by simp)]
    exact ih a (fun y hy b => h y (by simp [hy]) b)

theorem pprScatterEdge_zero (g : CSRGraph) (r : List ℚ) (u : ℕ)
    (hr : r.getD u 0 = 0) (acc : List ℚ) (k : ℕ) :
    pprScatterEdge g r u acc k = acc := by
  simp only [pprScatterEdge, hr, zero_mul, add_zero]
  exact listSet_getD_self acc _

theorem pprScatterNode_zero (g : CSRGraph) (r : List ℚ) (st : List ℚ × ℚ) (u : ℕ)
    (hr : r.getD u 0 = 0) : pprScatterNode g r st u = st := by
  obtain ⟨a, d⟩ := st
  unfold pprScatterNode
  split
  · rw [listFoldl_fixed _ _ _ (fun k _ acc => pprScatterEdge_zero g r u hr acc k)]
  · rw [hr, add_zero]

theorem pprScatter_zero (g : CSRGraph) :
    pprScatter g (List.replicate g.num_nodes 0) = (List.replicate g.num_nodes 0, 0) := by
  unfold pprScatter
  exact listFoldl_fixed _ _ _
    (fun u _ st => pprScatterNode_zero g _ st u (listGetD_replicate_zero _ _))

theorem pprSweep_zero (g : CSRGraph) (alpha : ℚ) :
    pprSweep g alpha (List.replicate g.num_nodes 0) (List.replicate g.num_nodes 0) =
      (List.replicate g.num_nodes 0, 0) := by
  have hval : ∀ i : ℕ,
      pprVal alpha (List.replicate g.num_nodes 0) (List.replicate g.num_nodes 0) 0 i = 0 := by
    intro i
    simp [pprVal, listGetD_replicate_zero]
  simp only [pprSweep, pprScatter_zero]
  rw [Prod.mk.injEq]
  constructor
  · rw [List.map_congr_left (fun i _ => hval i), List.map_const', List.length_range]
  · apply List.sum_eq_zero
    intro x hx
    rcases List.mem_map.mp hx with ⟨i, _, rfl⟩
    rw [hval i, listGetD_replicate_zero]
    simp

theorem pprLoop_succ (g : CSRGraph) (alpha epsilon : ℚ) (p : List ℚ) (fuel : ℕ)
    (r : List ℚ) (ic : ℕ) :
    pprLoop g alpha epsilon p (fuel + 1) r ic =
      if (pprSweep g alpha p r).2 < epsilon then ((pprSweep g alpha p r).1, ic + 1)
      else pprLoop g alpha epsilon p fuel (pprSweep g alpha p r).1 (ic + 1) := rfl

theorem pprCompute_empty_aux (g : CSRGraph) (alpha epsilon : ℚ) (heps : 0 < epsilon) :
    pprCompute g [] alpha epsilon = ⟨List.replicate g.num_nodes 0, 1⟩ := by
  have hp : pprPersonalization g.num_nodes [] = List.replicate g.num_nodes 0 := by
    simp [pprPersonalization]
  simp only [pprCompute, hp]
  rw [show (100 : ℕ) = 99 + 1 from rfl, pprLoop_succ, pprSweep_zero]
  simp [heps]

/-- C2 amended: with an empty seed set the personalization vector is all-zero
and `PPREngine::compute` returns the all-zero score vector, but with
`iterationsUsed = 1` for every `epsilon > 0` (the loop always performs and
counts its first sweep, whose L1 difference is `0 < epsilon`), not `0`. -/
theorem pprCompute_emptySeeds (g : CSRGraph) (alpha epsilon : ℚ) (heps : 0 < epsilon) :
    pprCompute g [] alpha epsilon = ⟨List.replicate g.num_nodes 0, 1⟩ :=
  pprCompute_empty_aux g alpha epsilon heps

/-- Witness for the amended C2 at a concrete input: the two-node graph of the
single edge `0 → 1`, `alpha = 1/2`, `epsilon = 1`. -/
theorem pprCompute_emptySeeds_witness :
    (0 : ℚ) < 1 ∧
    pprCompute (buildCSR 2 [(0, 1, 1)]) [] (1 / 2) 1 =
      ⟨List.replicate (buildCSR 2 [(0, 1, 1)]).num_nodes 0, 1⟩ :=
  ⟨one_pos, pprCompute_emptySeeds (buildCSR 2 [(0, 1, 1)]) (1 / 2) 1 one_pos⟩

/-- C2 counterexample: on the two-node graph of the single edge `0 → 1`, with
an empty seed set and the conventional `epsilon = 1e-6`, `PPREngine::compute`
reports `iterationsUsed = 1`, not `0`: the loop body runs and counts its first
sweep before the convergence check can stop anything. -/
theorem pprCompute_emptySeeds_cex :
    (pprCompute (buildCSR 2 [(0, 1, 1)]) [] (15 / 100) (1 / 1000000)).iterations = 1 ∧
    (1 : ℕ) ≠ 0 := by
  constructor
  · rw [pprCompute_empty_aux (buildCSR 2 [(0, 1, 1)]) (15 / 100) (1 / 1000000) (by norm_num)]
  · simp

/-! ### Personalization characterization (out-of-range seed handling) -/

theorem pprSeedFold_getD (N : ℕ) (m : ℚ) (seeds : List ℕ) (p : List ℚ) (i : ℕ)
    (hlen : p.length = N) (hi : i < N) :
    (seeds.foldl (fun q id => if id < N then q.set id m else q) p).getD i 0 =
      if i ∈ seeds then m else p.getD i 0 := by
  induction seeds generalizing p with
  | nil => simp
  | cons s ss ih =>
    rw [List.foldl_cons]
    have hlen1 : (if s < N then p.set s m else p).length = N := by
      split <;> simp [hlen]
    rw [ih _ hlen1]
    by_cases hmem : i ∈ ss
    · simp [hmem]
    · by_cases his : i = s
      · subst his
        rw [if_neg hmem, if_pos (List.mem_cons_self i ss), if_pos hi]
        exact listGetD_set_eq p i m 0 (by rw [hlen]; exact hi)
      · have hnot : i ∉ s :: ss := by
          intro hc
          rcases List.mem_cons.mp hc with h1 | h2
          · exact his h1
          · exact hmem h2
        rw [if_neg hmem, if_neg hnot]
        split
        · exact listGetD_set_ne p s i m 0 (fun hc => his hc.symm)
        · rfl

/-- C3 amended: neither engine rejects out-of-range seed ids.
`PPREngine::compute` silently skips every id `≥ N` when building the
personalization vector while still dividing the unit mass by the full seed
count, so each in-range seed receives `1/|seeds|` and nothing else is
assigned (`MonteCarloEngine::compute` performs no validation at all before
walking). -/
theorem pprPersonalization_silent_drop (N : ℕ) (seeds : List ℕ) (i : ℕ)
    (hne : seeds ≠ []) (hi : i < N) :
    (pprPersonalization N seeds).getD i 0 =
      if i ∈ seeds then 1 / (seeds.length : ℚ) else 0 := by
  unfold pprPersonalization
  rw [if_neg (by simpa [List.isEmpty_iff] using hne)]
  rw [pprSeedFold_getD N _ seeds _ i (by simp) hi, listGetD_replicate_zero]

/-- Witness for the amended C3 at a concrete input: one node, seed list
`[0, 5]` with `5` out of range. -/
theorem pprPersonalization_silent_drop_witness :
    (([0, 5] : List ℕ) ≠ [] ∧ 0 < 1) ∧
    (pprPersonalization 1 [0, 5]).getD 0 0 =
      if 0 ∈ ([0, 5] : List ℕ) then 1 / (([0, 5] : List ℕ).length : ℚ) else 0 :=
  ⟨⟨by simp, one_pos⟩, pprPersonalization_silent_drop 1 [0, 5] 0 (by simp) one_pos⟩

/-- C3 counterexample: with one node and seed list `[0, 5]` (id `5` outside
`[0, 1)`), no `InvalidSeedError`-style failure occurs anywhere: the
personalization vector is `[1/2]` — the invalid id is silently dropped while
the mass is still divided by the full seed count, so only `1/2` of the unit
mass is distributed — and `MonteCarloEngine::compute` likewise starts without
any seed validation (here with a zero walk budget it returns normally). -/
theorem pprInvalidSeed_cex :
    pprPersonalization 1 [0, 5] = [1 / 2] ∧
    (pprPersonalization 1 [0, 5]).sum ≠ 1 ∧
    mcCompute (buildCSR 1 [(0, 0, 1)]) [0, 5] (1 / 2) 0 (fun _ => (0, [])) =
      ⟨List.replicate 1 0, 0⟩ := by
  have hp : pprPersonalization 1 [0, 5] = [1 / 2] := by
    simp [pprPersonalization]
  refine ⟨hp, ?_, ?_⟩
  · rw [hp]
    norm_num
  · simp [mcCompute, buildCSR]

/-! ### CSR construction invariants -/

theorem buildCSR_row_ptr (N : ℕ) (edges : List (ℕ × ℕ × ℚ)) :
    (buildCSR N edges).row_ptr =
      (List.range (N + 1)).map
        (fun i => ((((List.range N).map (adjRow edges)).take i).map List.length).sum) := rfl

theorem buildCSR_edge_weights (N : ℕ) (edges : List (ℕ × ℕ × ℚ)) :
    (buildCSR N edges).edge_weights =
      ((List.range N).map (fun i => (adjRow edges i).map Prod.snd)).flatten := by
  simp only [buildCSR]
  rw [List.map_map]
  rfl

theorem buildCSR_out_weight_sum (N : ℕ) (edges : List (ℕ × ℕ × ℚ)) :
    (buildCSR N edges).out_weight_sum =
      (List.range N).map (fun i => ((adjRow edges i).map Prod.snd).sum) := by
  simp only [buildCSR]
  rw [List.map_map]
  rfl

theorem buildCSR_rowPtr_getD (N : ℕ) (edges : List (ℕ × ℕ × ℚ)) (i : ℕ) (hi : i ≤ N) :
    (buildCSR N edges).row_ptr.getD i 0 =
      ((((List.range N).map (adjRow edges)).take i).map List.length).sum := by
  rw [buildCSR_row_ptr]
  exact listGetD_map_range _ (N + 1) i 0 (by omega)

theorem lenSum_take_succ {α : Type} (L : List (List α)) (i : ℕ) :
    ((L.take (i + 1)).map List.length).sum =
      ((L.take i).map List.length).sum + (L[i]?.toList.map List.length).sum := by
  rw [List.take_succ, List.map_append, List.sum_append]

theorem sum_indicator_range (N a : ℕ) (ha : a < N) :
    ((List.range N).map (fun i => if a = i then 1 else 0)).sum = 1 := by
  induction N with
  | zero => omega
  | succ M ih =>
    rw [List.range_succ, List.map_append, List.sum_append]
    by_cases h : a = M
    · subst h
      have hzero : ((List.range a).map (fun i => if a = i then 1 else 0)).sum = 0 := by
        apply List.sum_eq_zero
        intro x hx
        rcases List.mem_map.mp hx with ⟨i, hi, rfl⟩
        have hne : a ≠ i := by
          have := List.mem_range.mp hi
          omega
        simp [hne]
      simp [hzero]
    · have ha2 : a < M := by omega
      rw [ih ha2]
      simp [h]

theorem adjRow_cons (e : ℕ × ℕ × ℚ) (es : List (ℕ × ℕ × ℚ)) (i : ℕ) :
    adjRow (e :: es) i =
      if e.1 = i then (e.2.1, e.2.2) :: adjRow es i else adjRow es i := by
  unfold adjRow
  rw [List.filter_cons]
  by_cases h : e.1 = i
  · simp [h]
  · simp [h]

theorem sum_map_add_nat {α : Type} (l : List α) (f f2 : α → ℕ) :
    (l.map (fun x => f x + f2 x)).sum = (l.map f).sum + (l.map f2).sum := by
  induction l with
  | nil => rfl
  | cons a t ih =>
    simp only [List.map_cons, List.sum_cons, ih]
    omega

theorem sum_adjRow_length (N : ℕ) (edges : List (ℕ × ℕ × ℚ))
    (hsrc : ∀ e ∈ edges, e.1 < N) :
    ((List.range N).map (fun i => (adjRow edges i).length)).sum = edges.length := by
  induction edges with
  | nil => simp [adjRow]
  | cons e es ih =>
    have hmap : ∀ i : ℕ, (adjRow (e :: es) i).length =
        (if e.1 = i then 1 else 0) + (adjRow es i).length := by
      intro i
      rw [adjRow_cons]
      by_cases h : e.1 = i
      · simp [h]
        omega
      · simp [h]
    rw [List.map_congr_left (fun i _ => hmap i), sum_map_add_nat,
      sum_indicator_range N e.1 (hsrc e (by simp)),
      ih (fun x hx => hsrc x (by simp [hx]))]
    simp [Nat.add_comm]

theorem flatten_drop_lenSum {α : Type} (L : List (List α)) (u : ℕ) :
    L.flatten.drop (((L.take u).map List.length).sum) = (L.drop u).flatten := by
  induction u generalizing L with
  | zero => simp
  | succ n ih =>
    cases L with
    | nil => simp
    | cons w L2 =>
      rw [List.take_succ_cons, List.map_cons, List.sum_cons, List.flatten_cons,
        List.drop_succ_cons, ← List.drop_drop, List.drop_left]
      exact ih L2

theorem flatten_slice {α : Type} (L : List (List α)) (u : ℕ) (hu : u < L.length) :
    (L.flatten.drop (((L.take u).map List.length).sum)).take
      ((((L.take (u + 1)).map List.length).sum) - ((L.take u).map List.length).sum) =
      L.getD u [] := by
  rw [flatten_drop_lenSum, List.drop_eq_getElem_cons hu, List.flatten_cons]
  have hlen : (((L.take (u + 1)).map List.length).sum) - ((L.take u).map List.length).sum
      = (L[u]).length := by
    rw [lenSum_take_succ, List.getElem?_eq_getElem hu]
    simp
  rw [hlen, List.take_left, List.getD_eq_getElem?_getD, List.getElem?_eq_getElem hu]
  rfl

theorem lenSum_map_snd (rows : List (List (ℕ × ℚ))) (i : ℕ) :
    (((rows.map (fun row => row.map Prod.snd)).take i).map List.length).sum =
      ((rows.take i).map List.length).sum := by
  rw [← List.map_take, List.map_map]
  congr 1
  apply List.map_congr_left
  intro row _
  simp

/-- C4: for every edge list accepted by the loader (all sources below `N`),
the constructed CSR graph satisfies: `row_ptr` has length `N+1`, is
non-decreasing, starts at `0`, ends at the edge count, and `out_weight_sum[u]`
equals the sum of `edge_weights` over the half-open range
`row_ptr[u] .. row_ptr[u+1]`, for every node `u`. -/
theorem buildCSR_invariants (N : ℕ) (edges : List (ℕ × ℕ × ℚ))
    (hsrc : ∀ e ∈ edges, e.1 < N) :
    (buildCSR N edges).row_ptr.length = N + 1 ∧
    (∀ i, i < N →
      (buildCSR N edges).row_ptr.getD i 0 ≤ (buildCSR N edges).row_ptr.getD (i + 1) 0) ∧
    (buildCSR N edges).row_ptr.getD 0 0 = 0 ∧
    (buildCSR N edges).row_ptr.getD N 0 = (buildCSR N edges).num_edges ∧
    (∀ u, u < N → (buildCSR N edges).out_weight_sum.getD u 0 =
      (((buildCSR N edges).edge_weights.drop ((buildCSR N edges).row_ptr.getD u 0)).take
        ((buildCSR N edges).row_ptr.getD (u + 1) 0 -
          (buildCSR N edges).row_ptr.getD u 0)).sum) := by
  refine ⟨?_, ?_, ?_, ?_, ?_⟩
  · rw [buildCSR_row_ptr]
    simp
  · intro i hi
    rw [buildCSR_rowPtr_getD N edges i (by omega),
      buildCSR_rowPtr_getD N edges (i + 1) (by omega), lenSum_take_succ]
    exact Nat.le_add_right _ _
  · rw [buildCSR_rowPtr_getD N edges 0 (by omega)]
    simp
  · rw [buildCSR_rowPtr_getD N edges N (le_refl N)]
    have htake : (((List.range N).map (adjRow edges)).take N) =
        (List.range N).map (adjRow edges) := by
      apply List.take_of_length_le
      simp
    rw [htake, List.map_map]
    have hnum : (buildCSR N edges).num_edges = edges.length := rfl
    rw [hnum, ← sum_adjRow_length N edges hsrc]
    rfl
  · intro u hu
    have hW : (buildCSR N edges).edge_weights =
        (((List.range N).map (adjRow edges)).map (fun row => row.map Prod.snd)).flatten := by
      rw [buildCSR_edge_weights, List.map_map]
      rfl
    have hrpu : (buildCSR N edges).row_ptr.getD u 0 =
        (((((List.range N).map (adjRow edges)).map (fun row => row.map Prod.snd)).take u).map
          List.length).sum := by
      rw [buildCSR_rowPtr_getD N edges u (by omega), lenSum_map_snd]
    have hrpu1 : (buildCSR N edges).row_ptr.getD (u + 1) 0 =
        (((((List.range N).map (adjRow edges)).map (fun row => row.map Prod.snd)).take
          (u + 1)).map List.length).sum := by
      rw [buildCSR_rowPtr_getD N edges (u + 1) (by omega), lenSum_map_snd]
    rw [hW, hrpu, hrpu1,
      flatten_slice (((List.range N).map (adjRow edges)).map (fun row => row.map Prod.snd)) u
        (by simp [hu])]
    have hgetW : ((((List.range N).map (adjRow edges)).map
        (fun row => row.map Prod.snd))).getD u [] = (adjRow edges u).map Prod.snd := by
      rw [List.map_map]
      exact listGetD_map_range _ N u [] hu
    rw [hgetW, buildCSR_out_weight_sum]
    exact listGetD_map_range (fun i => ((adjRow edges i).map Prod.snd).sum) N u 0 hu

/-- Witness for C4 at a concrete input: two nodes with the two edges
`0 → 1` and `1 → 0` (both of weight one). -/
theorem buildCSR_invariants_witness :
    (∀ e ∈ [((0 : ℕ), (1 : ℕ), (1 : ℚ)), (1, 0, 1)], e.1 < 2) ∧
    (buildCSR 2 [((0 : ℕ), (1 : ℕ), (1 : ℚ)), (1, 0, 1)]).row_ptr.getD 2 0 =
      (buildCSR 2 [((0 : ℕ), (1 : ℕ), (1 : ℚ)), (1, 0, 1)]).num_edges :=
  ⟨by simp, (buildCSR_invariants 2 [(0, 1, 1), (1, 0, 1)] (by simp)).2.2.2.1⟩

/-! ### Scatter-phase characterization (combine formula of the sweep) -/

theorem pprScatterEdge_length (g : CSRGraph) (r : List ℚ) (u : ℕ) (acc : List ℚ) (k : ℕ) :
    (pprScatterEdge g r u acc k).length = acc.length := by
  simp [pprScatterEdge]

theorem foldl_scatterEdge_length (g : CSRGraph) (r : List ℚ) (u : ℕ) (ks : List ℕ)
    (acc : List ℚ) : (ks.foldl (pprScatterEdge g r u) acc).length = acc.length := by
  induction ks generalizing acc with
  | nil => rfl
  | cons k ks ih => rw [List.foldl_cons, ih, pprScatterEdge_length]

theorem foldl_scatterEdge_getD (g : CSRGraph) (r : List ℚ) (u i : ℕ) (ks : List ℕ)
    (acc : List ℚ) (hi : i < acc.length) :
    (ks.foldl (pprScatterEdge g r u) acc).getD i 0 =
      acc.getD i 0 + ((ks.filter (fun k => g.col_indices.getD k 0 = i)).map
        (fun k => r.getD u 0 * (g.edge_weights.getD k 0 / g.out_weight_sum.getD u 0))).sum := by
  induction ks generalizing acc with
  | nil => simp
  | cons k ks ih =>
    rw [List.foldl_cons, List.filter_cons]
    by_cases hv : g.col_indices.getD k 0 = i
    · rw [if_pos (by simp only [decide_eq_true_eq]; exact hv), List.map_cons, List.sum_cons,
        ih _ (by rw [pprScatterEdge_length]; exact hi)]
      have hstep : (pprScatterEdge g r u acc k).getD i 0 =
          acc.getD i 0 +
            r.getD u 0 * (g.edge_weights.getD k 0 / g.out_weight_sum.getD u 0) := by
        simp only [pprScatterEdge, hv]
        exact listGetD_set_eq acc i _ 0 hi
      rw [hstep]
      ring
    · rw [if_neg (by simp only [decide_eq_true_eq]; exact hv),
        ih _ (by rw [pprScatterEdge_length]; exact hi)]
      have hstep : (pprScatterEdge g r u acc k).getD i 0 = acc.getD i 0 := by
        simp only [pprScatterEdge]
        exact listGetD_set_ne acc _ i _ 0 hv
      rw [hstep]

theorem foldl_scatterNode_spec (g : CSRGraph) (r : List ℚ) (us : List ℕ)
    (acc : List ℚ) (d : ℚ) :
    (us.foldl (pprScatterNode g r) (acc, d)).1.length = acc.length ∧
    (us.foldl (pprScatterNode g r) (acc, d)).2 =
      d + ((us.filter (fun u => ¬ 0 < g.out_weight_sum.getD u 0)).map
        (fun u => r.getD u 0)).sum ∧
    (∀ i, i < acc.length →
      (us.foldl (pprScatterNode g r) (acc, d)).1.getD i 0 =
        acc.getD i 0 + ((us.filter (fun u => 0 < g.out_weight_sum.getD u 0)).map
          (fun u => (((edgeRange g u).filter (fun k => g.col_indices.getD k 0 = i)).map
            (fun k =>
              r.getD u 0 * (g.edge_weights.getD k 0 / g.out_weight_sum.getD u 0))).sum)).sum) := by
  induction us generalizing acc d with
  | nil => simp
  | cons u us ih =>
    rw [List.foldl_cons]
    by_cases hS : 0 < g.out_weight_sum.getD u 0
    · have hstep : pprScatterNode g r (acc, d) u =
          ((edgeRange g u).foldl (pprScatterEdge g r u) acc, d) := by
        simp only [pprScatterNode, if_pos hS]
      rw [hstep]
      obtain ⟨ihlen, ihdead, ihent⟩ :=
        ih ((edgeRange g u).foldl (pprScatterEdge g r u) acc) d
      refine ⟨?_, ?_, ?_⟩
      · rw [ihlen, foldl_scatterEdge_length]
      · rw [ihdead, List.filter_cons,
          if_neg (by simp only [decide_eq_true_eq]; exact not_not_intro hS)]
      · intro i hi
        rw [ihent i (by rw [foldl_scatterEdge_length]; exact hi),
          foldl_scatterEdge_getD g r u i _ acc hi,
          List.filter_cons, if_pos (by simp only [decide_eq_true_eq]; exact hS),
          List.map_cons, List.sum_cons]
        ring
    · have hstep : pprScatterNode g r (acc, d) u = (acc, d + r.getD u 0) := by
        simp only [pprScatterNode, if_neg hS]
      rw [hstep]
      obtain ⟨ihlen, ihdead, ihent⟩ := ih acc (d + r.getD u 0)
      refine ⟨ihlen, ?_, ?_⟩
      · rw [ihdead, List.filter_cons, if_pos (by simp only [decide_eq_true_eq]; exact hS),
          List.map_cons, List.sum_cons]
        ring
      · intro i hi
        rw [ihent i hi, List.filter_cons,
          if_neg (by simp only [decide_eq_true_eq]; exact hS)]

/-- The claim's mathematical form of the scatter accumulation at node `i`:
the total pushed mass `Σ_{u : out_weight_sum[u] > 0} Σ_{k in u's range, col=i}
r[u] * (w_k / out_weight_sum[u])`. -/
def scatterSum (g : CSRGraph) (r : List ℚ) (i : ℕ) : ℚ :=
  (((List.range g.num_nodes).filter (fun u => 0 < g.out_weight_sum.getD u 0)).map
    (fun u => (((edgeRange g u).filter (fun k => g.col_indices.getD k 0 = i)).map
      (fun k => r.getD u 0 * (g.edge_weights.getD k 0 / g.out_weight_sum.getD u 0))).sum)).sum

/-- The claim's mathematical form of the dead mass: `Σ r[u]` over dangling
nodes (`out_weight_sum[u] = 0`). -/
def deadSum (g : CSRGraph) (r : List ℚ) : ℚ :=
  (((List.range g.num_nodes).filter (fun u => g.out_weight_sum.getD u 0 = 0)).map
    (fun u => r.getD u 0)).sum

theorem deadFilter_eq (g : CSRGraph)
    (hS : ∀ u < g.num_nodes, 0 ≤ g.out_weight_sum.getD u 0) :
    (List.range g.num_nodes).filter (fun u => ¬ 0 < g.out_weight_sum.getD u 0) =
      (List.range g.num_nodes).filter (fun u => g.out_weight_sum.getD u 0 = 0) := by
  apply List.filter_congr
  intro u hu
  have h := hS u (List.mem_range.mp hu)
  apply decide_eq_decide.mpr
  constructor
  · intro hnot
    exact le_antisymm (not_lt.mp hnot) h
  · intro hz
    rw [hz]
    exact lt_irrefl 0

/-- C1: in every power-iteration sweep over a graph with non-negative
out-weight sums, the combine phase produces, at every node `i`,
`(1-alpha) * (scatter accumulation at i) + alpha * p[i]
+ (1-alpha) * dead_mass * p[i]`, where the scatter accumulation sums
`r[u] * (w / out_weight_sum[u])` over all outgoing edges `u → i` of nodes
with positive out-weight, and `dead_mass` sums `r[u]` over dangling nodes:
dangling mass is redistributed proportionally to `p` and damped once more by
`(1-alpha)`, not spread uniformly over all nodes. -/
theorem pprSweep_formula (g : CSRGraph) (alpha : ℚ) (p r : List ℚ) (i : ℕ)
    (hi : i < g.num_nodes)
    (hS : ∀ u < g.num_nodes, 0 ≤ g.out_weight_sum.getD u 0) :
    (pprSweep g alpha p r).1.getD i 0 =
      (1 - alpha) * scatterSum g r i + alpha * p.getD i 0
        + (1 - alpha) * deadSum g r * p.getD i 0 := by
  have hspec := foldl_scatterNode_spec g r (List.range g.num_nodes)
    (List.replicate g.num_nodes 0) 0
  have hsc1 : (pprScatter g r).1.getD i 0 = scatterSum g r i := by
    unfold pprScatter
    rw [hspec.2.2 i (by simpa using hi), listGetD_replicate_zero, zero_add]
    rfl
  have hsc2 : (pprScatter g r).2 = deadSum g r := by
    unfold pprScatter
    rw [hspec.2.1, zero_add, deadFilter_eq g hS]
    rfl
  simp only [pprSweep]
  rw [listGetD_map_range _ _ i 0 hi]
  unfold pprVal
  rw [hsc1, hsc2]

/-- Witness for C1 at a concrete input: the two-node graph of the single edge
`0 → 1`, `p = r = [1, 0]`, `alpha = 1/2`, combined value read at node `1`. -/
theorem pprSweep_formula_witness :
    ((1 : ℕ) < 2 ∧
      (∀ u < 2, (0 : ℚ) ≤ (buildCSR 2 [(0, 1, 1)]).out_weight_sum.getD u 0)) ∧
    (pprSweep (buildCSR 2 [(0, 1, 1)]) (1 / 2) [1, 0] [1, 0]).1.getD 1 0 =
      (1 - 1 / 2) * scatterSum (buildCSR 2 [(0, 1, 1)]) [1, 0] 1
        + (1 / 2) * ([(1 : ℚ), 0].getD 1 0)
        + (1 - 1 / 2) * deadSum (buildCSR 2 [(0, 1, 1)]) [1, 0] * ([(1 : ℚ), 0].getD 1 0) := by
  have hS : ∀ u < 2, (0 : ℚ) ≤ (buildCSR 2 [(0, 1, 1)]).out_weight_sum.getD u 0 := by
    intro u hu
    interval_cases u <;> simp [buildCSR, adjRow, List.range_succ]
  exact ⟨⟨by decide, hS⟩,
    pprSweep_formula (buildCSR 2 [(0, 1, 1)]) (1 / 2) [1, 0] [1, 0] 1 (by decide) hS⟩

/-! ### Reaching the iteration cap -/

/-- The `n`-fold application of one sweep starting from the iterate `r`
(the mathematical form of "the iterate produced by sweep `n`"). -/
def pprIterFrom (g : CSRGraph) (alpha : ℚ) (p r : List ℚ) : ℕ → List ℚ
  | 0 => r
  | n + 1 => (pprSweep g alpha p (pprIterFrom g alpha p r n)).1

theorem pprIterFrom_shift (g : CSRGraph) (alpha : ℚ) (p r : List ℚ) (n : ℕ) :
    pprIterFrom g alpha p r (n + 1) =
      pprIterFrom g alpha p (pprSweep g alpha p r).1 n := by
  induction n with
  | zero => rfl
  | succ m ih =>
    show (pprSweep g alpha p (pprIterFrom g alpha p r (m + 1))).1 = _
    rw [ih]
    rfl

theorem pprLoop_noconv (g : CSRGraph) (alpha epsilon : ℚ) (p : List ℚ) :
    ∀ (fuel : ℕ) (r : List ℚ) (ic : ℕ),
      (∀ k < fuel, epsilon ≤ (pprSweep g alpha p (pprIterFrom g alpha p r k)).2) →
      pprLoop g alpha epsilon p fuel r ic = (pprIterFrom g alpha p r fuel, ic + fuel) := by
  intro fuel
  induction fuel with
  | zero =>
    intro r ic h
    rfl
  | succ m ih =>
    intro r ic h
    rw [pprLoop_succ]
    have h0 : epsilon ≤ (pprSweep g alpha p r).2 := h 0 (by omega)
    rw [if_neg (not_lt.mpr h0)]
    rw [ih ((pprSweep g alpha p r).1) (ic + 1) ?_]
    · rw [← pprIterFrom_shift]
      have : ic + 1 + m = ic + (m + 1) := by omega
      rw [this]
    · intro k hk
      have := h (k + 1) (by omega)
      rwa [pprIterFrom_shift] at this

theorem pprSweep_diff_nonneg (g : CSRGraph) (alpha : ℚ) (p r : List ℚ) :
    0 ≤ (pprSweep g alpha p r).2 := by
  simp only [pprSweep]
  apply List.sum_nonneg
  intro x hx
  rcases List.mem_map.mp hx with ⟨i, _, rfl⟩
  exact abs_nonneg _

/-- C8: if every one of the 100 sweeps has an L1 difference that stays at or
above `epsilon`, `PPREngine::compute` returns the iterate produced by the
100th (final) sweep together with `iterationsUsed = 100` — an ordinary
return value, not an error. -/
theorem pprCompute_maxIter (g : CSRGraph) (seeds : List ℕ) (alpha epsilon : ℚ)
    (h : ∀ k < 100, epsilon ≤
      (pprSweep g alpha (pprPersonalization g.num_nodes seeds)
        (pprIterFrom g alpha (pprPersonalization g.num_nodes seeds)
          (pprPersonalization g.num_nodes seeds) k)).2) :
    pprCompute g seeds alpha epsilon =
      ⟨pprIterFrom g alpha (pprPersonalization g.num_nodes seeds)
        (pprPersonalization g.num_nodes seeds) 100, 100⟩ := by
  simp only [pprCompute]
  rw [pprLoop_noconv g alpha epsilon _ 100 _ 0 h]

/-- Witness for C8 at a concrete input: the one-node self-loop graph, seed
`0`, `epsilon = 0` (so `diff < epsilon` never holds and all 100 sweeps run). -/
theorem pprCompute_maxIter_witness :
    (∀ k < 100, (0 : ℚ) ≤
      (pprSweep (buildCSR 1 [(0, 0, 1)]) (1 / 2) (pprPersonalization 1 [0])
        (pprIterFrom (buildCSR 1 [(0, 0, 1)]) (1 / 2) (pprPersonalization 1 [0])
          (pprPersonalization 1 [0]) k)).2) ∧
    pprCompute (buildCSR 1 [(0, 0, 1)]) [0] (1 / 2) 0 =
      ⟨pprIterFrom (buildCSR 1 [(0, 0, 1)]) (1 / 2) (pprPersonalization 1 [0])
        (pprPersonalization 1 [0]) 100, 100⟩ :=
  ⟨fun _ _ => pprSweep_diff_nonneg _ _ _ _,
   pprCompute_maxIter (buildCSR 1 [(0, 0, 1)]) [0] (1 / 2) 0
     (fun _ _ => pprSweep_diff_nonneg _ _ _ _)⟩

/-! ### Monte Carlo visit counting and normalization -/

theorem sum_set_bump_ge (l : List ℕ) (i : ℕ) :
    l.sum ≤ (l.set i (l.getD i 0 + 1)).sum := by
  induction l generalizing i with
  | nil => simp
  | cons a t ih =>
    cases i with
    | zero =>
      rw [List.getD_cons_zero, List.set_cons_zero, List.sum_cons, List.sum_cons]
      omega
    | succ j =>
      rw [List.getD_cons_succ, List.set_cons_succ, List.sum_cons, List.sum_cons]
      exact Nat.add_le_add_left (ih j) a

theorem sum_set_bump_eq (l : List ℕ) (i : ℕ) (h : i < l.length) :
    (l.set i (l.getD i 0 + 1)).sum = l.sum + 1 := by
  induction l generalizing i with
  | nil => simp at h
  | cons a t ih =>
    cases i with
    | zero =>
      rw [List.getD_cons_zero, List.set_cons_zero, List.sum_cons, List.sum_cons]
      omega
    | succ j =>
      rw [List.getD_cons_succ, List.set_cons_succ, List.sum_cons, List.sum_cons,
        ih j (by simpa using h)]
      omega

theorem mcWalk_sum_ge (g : CSRGraph) (alpha : ℚ) (draws : List (ℚ × ℚ)) (curr : ℕ)
    (visits : List ℕ) : visits.sum ≤ (mcWalk g alpha draws curr visits).sum := by
  induction draws generalizing curr visits with
  | nil =>
    simp only [mcWalk]
    exact sum_set_bump_ge visits curr
  | cons dt rest ih =>
    simp only [mcWalk]
    split
    · exact sum_set_bump_ge visits curr
    · split
      · exact sum_set_bump_ge visits curr
      · exact le_trans (sum_set_bump_ge visits curr) (ih _ _)

theorem mcWalk_sum_succ (g : CSRGraph) (alpha : ℚ) (draws : List (ℚ × ℚ)) (curr : ℕ)
    (visits : List ℕ) (h : curr < visits.length) :
    visits.sum + 1 ≤ (mcWalk g alpha draws curr visits).sum := by
  cases draws with
  | nil =>
    simp only [mcWalk]
    exact le_of_eq (sum_set_bump_eq visits curr h).symm
  | cons dt rest =>
    simp only [mcWalk]
    split
    · exact le_of_eq (sum_set_bump_eq visits curr h).symm
    · split
      · exact le_of_eq (sum_set_bump_eq visits curr h).symm
      · calc visits.sum + 1 = (visits.set curr (visits.getD curr 0 + 1)).sum :=
              (sum_set_bump_eq visits curr h).symm
          _ ≤ _ := mcWalk_sum_ge g alpha rest _ _

theorem foldl_sum_ge {α : Type} (f : List ℕ → α → List ℕ)
    (hmono : ∀ v a, v.sum ≤ (f v a).sum) :
    ∀ (l : List α) (v : List ℕ), v.sum ≤ (l.foldl f v).sum := by
  intro l
  induction l with
  | nil =>
    intro v
    exact le_refl _
  | cons a t ih =>
    intro v
    rw [List.foldl_cons]
    exact le_trans (hmono v a) (ih (f v a))

theorem mcVisits_sum_pos (g : CSRGraph) (seeds : List ℕ) (alpha : ℚ) (m : ℕ)
    (rand : ℕ → ℕ × List (ℚ × ℚ)) (hne : seeds ≠ [])
    (hval : ∀ s ∈ seeds, s < g.num_nodes) :
    0 < ((List.range (m + 1)).foldl
      (fun v i => mcWalk g alpha (rand i).2
        (seeds.getD ((rand i).1 % seeds.length) 0) v)
      (List.replicate g.num_nodes 0)).sum := by
  have hlenpos : 0 < seeds.length := by
    cases seeds
    · exact absurd rfl hne
    · simp
  have hstart : seeds.getD ((rand 0).1 % seeds.length) 0 < g.num_nodes :=
    hval _ (listGetD_mem seeds _ 0 (Nat.mod_lt _ hlenpos))
  rw [List.range_succ_eq_map, List.foldl_cons]
  apply lt_of_lt_of_le _ (foldl_sum_ge _ (fun v a => mcWalk_sum_ge g alpha _ _ v) _ _)
  have h1 : (List.replicate g.num_nodes 0).sum + 1 ≤
      (mcWalk g alpha (rand 0).2 (seeds.getD ((rand 0).1 % seeds.length) 0)
        (List.replicate g.num_nodes 0)).sum :=
    mcWalk_sum_succ g alpha _ _ _ (by simpa using hstart)
  have h0 : (List.replicate g.num_nodes (0 : ℕ)).sum = 0 := by simp
  omega

theorem sum_map_div_cast (l : List ℕ) (T : ℚ) :
    (l.map (fun c : ℕ => (c : ℚ) / T)).sum = ((l.sum : ℕ) : ℚ) / T := by
  induction l with
  | nil => simp
  | cons a t ih =>
    rw [List.map_cons, List.sum_cons, ih, List.sum_cons]
    push_cast
    rw [div_add_div_same]

/-- C5: whenever `MonteCarloEngine::compute` runs with a non-empty, in-range
seed set and `totalWalks > 0`, at least one visit is recorded (each walk
counts its start node before any draw), and the returned score vector —
each `visits[i]` divided by the total visit count — sums to exactly `1`. -/
theorem mcCompute_scores_sum_one (g : CSRGraph) (seeds : List ℕ) (alpha : ℚ)
    (total_walks : ℕ) (rand : ℕ → ℕ × List (ℚ × ℚ))
    (hne : seeds ≠ []) (hval : ∀ s ∈ seeds, s < g.num_nodes)
    (htw : 0 < total_walks) :
    (mcCompute g seeds alpha total_walks rand).scores.sum = 1 := by
  have hempty : seeds.isEmpty = false := by
    cases seeds
    · exact absurd rfl hne
    · rfl
  obtain ⟨m, rfl⟩ : ∃ m, total_walks = m + 1 := ⟨total_walks - 1, by omega⟩
  have hpos := mcVisits_sum_pos g seeds alpha m rand hne hval
  simp only [mcCompute, hempty, Bool.false_eq_true, if_false]
  rw [if_pos hpos, sum_map_div_cast]
  exact div_self (Nat.cast_ne_zero.mpr (by omega))

/-- Witness for C5 at a concrete input: the two-node graph of the single edge
`0 → 1`, seed set `[0]`, one walk, a random stream that stops immediately. -/
theorem mcCompute_scores_sum_one_witness :
    (([0] : List ℕ) ≠ [] ∧ (∀ s ∈ ([0] : List ℕ), s < 2) ∧ 0 < 1) ∧
    (mcCompute (buildCSR 2 [(0, 1, 1)]) [0] (1 / 2) 1 (fun _ => (0, []))).scores.sum = 1 :=
  ⟨⟨by simp, by simp, one_pos⟩,
   mcCompute_scores_sum_one (buildCSR 2 [(0, 1, 1)]) [0] (1 / 2) 1 (fun _ => (0, []))
     (by simp) (by simp [buildCSR]) one_pos⟩

/-! ### Weighted neighbor selection scan -/

/-- Cumulative weight of the first `j` edges of `curr`'s outgoing range (the
running sum `acc` of the scan after `j` steps, started at `0`). -/
def rowPrefixWeight (g : CSRGraph) (curr : ℕ) (j : ℕ) : ℚ :=
  (((edgeRange g curr).take j).map (fun k => g.edge_weights.getD k 0)).sum

theorem mcScan_stay (g : CSRGraph) (target : ℚ) (curr : ℕ) :
    ∀ (ks : List ℕ) (acc : ℚ),
      (∀ j < ks.length,
        acc + ((ks.take (j + 1)).map (fun k => g.edge_weights.getD k 0)).sum < target) →
      mcScan g target curr acc ks = curr := by
  intro ks
  induction ks with
  | nil =>
    intro acc h
    rfl
  | cons k ks ih =>
    intro acc h
    have h0 := h 0 (by simp)
    simp only [List.take_succ_cons, List.take_zero, List.map_cons, List.map_nil,
      List.sum_cons, List.sum_nil, add_zero] at h0
    simp only [mcScan]
    rw [if_neg (not_le.mpr h0)]
    apply ih
    intro j hj
    have hsh := h (j + 1) (by simpa using Nat.succ_lt_succ hj)
    simp only [List.take_succ_cons, List.map_cons, List.sum_cons] at hsh
    linarith

theorem mcScan_hit (g : CSRGraph) (target : ℚ) (curr : ℕ) :
    ∀ (ks : List ℕ) (acc : ℚ) (j : ℕ), j < ks.length →
      target ≤ acc + ((ks.take (j + 1)).map (fun k => g.edge_weights.getD k 0)).sum →
      (∀ i2 < j,
        acc + ((ks.take (i2 + 1)).map (fun k => g.edge_weights.getD k 0)).sum < target) →
      mcScan g target curr acc ks = g.col_indices.getD (ks.getD j 0) 0 := by
  intro ks
  induction ks with
  | nil =>
    intro acc j hj
    simp at hj
  | cons k ks ih =>
    intro acc j hj hcross hmin
    simp only [mcScan]
    cases j with
    | zero =>
      simp only [List.take_succ_cons, List.take_zero, List.map_cons, List.map_nil,
        List.sum_cons, List.sum_nil, add_zero] at hcross
      rw [if_pos hcross]
      rw [List.getD_cons_zero]
    | succ j2 =>
      have h0 := hmin 0 (by omega)
      simp only [List.take_succ_cons, List.take_zero, List.map_cons, List.map_nil,
        List.sum_cons, List.sum_nil, add_zero] at h0
      rw [if_neg (not_le.mpr h0), List.getD_cons_succ]
      apply ih (acc + g.edge_weights.getD k 0) j2 (by simpa using hj)
      · have hc2 := hcross
        simp only [List.take_succ_cons, List.map_cons, List.sum_cons] at hc2
        linarith
      · intro i2 hi2
        have hm2 := hmin (i2 + 1) (by omega)
        simp only [List.take_succ_cons, List.map_cons, List.sum_cons] at hm2
        linarith

/-- C10: the weighted neighbor selection of `MonteCarloEngine::compute`
(a) reads only edge indices inside `row_ptr[curr] .. row_ptr[curr+1]`,
(b) picks the destination of the first edge whose running cumulative weight
reaches or exceeds the scaled draw, (c) leaves the walk at the current node
when the whole range is scanned with the cumulative sum still below the draw,
and (d) in exact arithmetic that fallback cannot arise from a draw below
`out_weight_sum[curr]` when the weights are consistent, since a crossing edge
then exists (the scan itself always terminates, being structural recursion on
the finite edge range). -/
theorem mcPick_spec (g : CSRGraph) (curr : ℕ) (target : ℚ)
    (hmono : g.row_ptr.getD curr 0 ≤ g.row_ptr.getD (curr + 1) 0) :
    (∀ k ∈ edgeRange g curr,
      g.row_ptr.getD curr 0 ≤ k ∧ k < g.row_ptr.getD (curr + 1) 0) ∧
    (∀ j < (edgeRange g curr).length,
      target ≤ rowPrefixWeight g curr (j + 1) →
      (∀ i2 < j, rowPrefixWeight g curr (i2 + 1) < target) →
      mcPick g curr target = g.col_indices.getD ((edgeRange g curr).getD j 0) 0) ∧
    ((∀ j < (edgeRange g curr).length, rowPrefixWeight g curr (j + 1) < target) →
      mcPick g curr target = curr) ∧
    (rowPrefixWeight g curr (edgeRange g curr).length = g.out_weight_sum.getD curr 0 →
      0 < g.out_weight_sum.getD curr 0 →
      target ≤ g.out_weight_sum.getD curr 0 →
      ∃ j, j < (edgeRange g curr).length ∧ target ≤ rowPrefixWeight g curr (j + 1)) := by
  refine ⟨?_, ?_, ?_, ?_⟩
  · intro k hk
    unfold edgeRange at hk
    have h := List.mem_range'_1.mp hk
    constructor
    · exact h.1
    · have := h.2
      omega
  · intro j hj hcross hmin
    unfold mcPick
    apply mcScan_hit g target curr (edgeRange g curr) 0 j hj
    · rw [zero_add]
      exact hcross
    · intro i2 hi2
      rw [zero_add]
      exact hmin i2 hi2
  · intro hall
    unfold mcPick
    apply mcScan_stay
    intro j hj
    rw [zero_add]
    exact hall j hj
  · intro hfull hpos htarget
    have hlen : 0 < (edgeRange g curr).length := by
      by_contra hc
      have h0 : (edgeRange g curr).length = 0 := by omega
      have hz : rowPrefixWeight g curr 0 = 0 := rfl
      rw [h0, hz] at hfull
      rw [← hfull] at hpos
      exact lt_irrefl 0 hpos
    refine ⟨(edgeRange g curr).length - 1, by omega, ?_⟩
    have hidx : (edgeRange g curr).length - 1 + 1 = (edgeRange g curr).length := by omega
    rw [hidx, hfull]
    exact htarget

/-- Witness for C10 at a concrete input: the two-node graph of the single
edge `0 → 1` (weight one), scanning node `0` with scaled draw `1`, which
crosses at the first (and only) edge. -/
theorem mcPick_spec_witness :
    ((buildCSR 2 [(0, 1, 1)]).row_ptr.getD 0 0 ≤
        (buildCSR 2 [(0, 1, 1)]).row_ptr.getD (0 + 1) 0 ∧
      0 < (edgeRange (buildCSR 2 [(0, 1, 1)]) 0).length ∧
      (1 : ℚ) ≤ rowPrefixWeight (buildCSR 2 [(0, 1, 1)]) 0 (0 + 1) ∧
      (∀ i2 < 0, rowPrefixWeight (buildCSR 2 [(0, 1, 1)]) 0 (i2 + 1) < (1 : ℚ))) ∧
    mcPick (buildCSR 2 [(0, 1, 1)]) 0 1 =
      (buildCSR 2 [(0, 1, 1)]).col_indices.getD
        ((edgeRange (buildCSR 2 [(0, 1, 1)]) 0).getD 0 0) 0 := by
  have hm : (buildCSR 2 [(0, 1, 1)]).row_ptr.getD 0 0 ≤
      (buildCSR 2 [(0, 1, 1)]).row_ptr.getD (0 + 1) 0 := by decide
  have hl : 0 < (edgeRange (buildCSR 2 [(0, 1, 1)]) 0).length := by decide
  have hc : (1 : ℚ) ≤ rowPrefixWeight (buildCSR 2 [(0, 1, 1)]) 0 (0 + 1) := by
    norm_num [rowPrefixWeight, edgeRange, buildCSR, adjRow, List.range_succ, List.range']
  have hmin : ∀ i2 < 0, rowPrefixWeight (buildCSR 2 [(0, 1, 1)]) 0 (i2 + 1) < (1 : ℚ) := by
    intro i2 hi2
    exact absurd hi2 (by omega)
  exact ⟨⟨hm, hl, hc, hmin⟩,
    (mcPick_spec (buildCSR 2 [(0, 1, 1)]) 0 1 hm).2.1 0 hl hc hmin⟩
